import Mathlib

/-!
# Verification of the finite-algebra engine (`finite_algebras.py`)

Shallow embedding of the table-driven algebra engine: the Cayley-table
queries, the `make_finite_algebra` classification ladder, the `Operator`
binary operation, `Group` inverse lookup, `closure`, direct products,
`Ring.zero_divisors`, `Monoid.element_order`, and the isomorphism candidate
generators.

Element names are `String`s, tables are `List (List Nat)` of indices, and
fallible Python code (exceptions such as `ValueError` / `KeyError` /
`IndexError`) is modelled with `Option` / explicit error constructors.
The `CayleyTable` class itself lives in `cayley_table.py`, which is not part
of the sources at hand; its structural queries are modelled from the spec
(section 4.1) and are marked `Modelled from the spec:` below.  Everything
else is translated from `finite_algebras.py`.
-/

/-- The `i`-th row of a table (`table[i]`; empty when out of range). -/
def rowOf (t : List (List Nat)) (i : Nat) : List Nat :=
  t.getD i []

/-- Table cell `table[i][j]` (`0` when out of range; in the Python source the
table is a numpy array and all accesses made by the engine are in range). -/
def tcell (t : List (List Nat)) (i j : Nat) : Nat :=
  (rowOf t i).getD j 0

/-- Modelled from the spec: the `CayleyTable` constructor validation
(`ShapeError`): the table is an `n × n` matrix whose cells all lie in
`[0, n)`, where `n` is the element count. -/
def tableOK (n : Nat) (t : List (List Nat)) : Bool :=
  t.length == n && t.all fun row => row.length == n && row.all fun v => v < n

/-- Modelled from the spec: `CayleyTable.is_associative`, the brute-force
triple loop checking `(a∘b)∘c == a∘(b∘c)` over all index triples. -/
def is_associative (t : List (List Nat)) : Bool :=
  (List.range t.length).all fun a =>
    (List.range t.length).all fun b =>
      (List.range t.length).all fun c =>
        tcell t (tcell t a b) c == tcell t a (tcell t b c)

/-- Modelled from the spec: `CayleyTable.is_commutative`, the all-pairs scan. -/
def is_commutative (t : List (List Nat)) : Bool :=
  (List.range t.length).all fun a =>
    (List.range t.length).all fun b =>
      tcell t a b == tcell t b a

/-- Modelled from the spec: the two-sided identity test for one row index. -/
def isIdentityIndex (t : List (List Nat)) (i : Nat) : Bool :=
  (List.range t.length).all fun j => tcell t i j == j && tcell t j i == j

/-- Modelled from the spec: `CayleyTable.identity` — scan row indices for a
two-sided identity, returning the first index found, or `none`. -/
def tidentity (t : List (List Nat)) : Option Nat :=
  (List.range t.length).find? (isIdentityIndex t)

/-- Modelled from the spec: `CayleyTable.has_inverses` — true iff an identity
exists and, for every row, the identity value appears exactly once in that
row. -/
def has_inverses (t : List (List Nat)) : Bool :=
  match tidentity t with
  | none => false
  | some e =>
      (List.range t.length).all fun i =>
        ((List.range (rowOf t i).length).filter fun j => tcell t i j == e).length == 1

/-- Modelled from the spec: `mult_table.distributes_over(add_table)` — left
and right distributivity of `mul` over `add` over all index triples. -/
def distributes_over (mul add : List (List Nat)) : Bool :=
  (List.range mul.length).all fun a =>
    (List.range mul.length).all fun b =>
      (List.range mul.length).all fun c =>
        (tcell mul a (tcell add b c) == tcell add (tcell mul a b) (tcell mul a c)) &&
        (tcell mul (tcell add b c) a == tcell add (tcell mul b a) (tcell mul c a))

/-- `list.index(x)` from Python: index of the first occurrence, `none` when
absent (Python raises `ValueError`). -/
def idxOf? {α : Type} [DecidableEq α] (x : α) : List α → Option Nat
  | [] => none
  | a :: as => if a = x then some 0 else (idxOf? x as).map (· + 1)

/-- `Operator.__binary_operation`: `elements[table[elements.index(a), elements.index(b)]]`.
`none` models the `ValueError` on an unknown element name. -/
def binOp (elems : List String) (t : List (List Nat)) (a b : String) : Option String := do
  let i ← idxOf? a elems
  let j ← idxOf? b elems
  let row ← t.get? i
  let v ← row.get? j
  elems.get? v

/-- `get_duplicates` from `finite_algebras.py`: the items occurring more than
once. -/
def get_duplicates (l : List String) : List String :=
  l.dedup.filter fun x => decide (1 < l.count x)

/-- The `is_field` stub from `finite_algebras.py` (the real logic is
commented out in the source; the function always reports "not a field"). -/
def is_field (_add_id : Nat) (_elements : List String) (_mult_table : List (List Nat)) : Bool :=
  false

/-- The structural level assigned by `make_finite_algebra`. -/
inductive AlgKind where
  | magma | semigroup | monoid | group | ring | field
deriving DecidableEq, Repr

/-- The record returned by `make_finite_algebra` (name/description omitted:
they carry no algebraic content). -/
structure MadeAlg where
  kind : AlgKind
  elems : List String
  table : List (List Nat)
  table2 : Option (List (List Nat))
deriving DecidableEq, Repr

/-- The classification ladder of `make_finite_algebra` (the source decides:
associative? identity? inverses? second table associative? `is_field`?). -/
def ladder (elems : List String) (t : List (List Nat))
    (t2 : Option (List (List Nat))) : AlgKind :=
  if is_associative t then
    match tidentity t with
    | some e =>
        if has_inverses t then
          match t2 with
          | some u => if is_associative u then
              (if is_field e elems u then .field else .ring) else .group
          | none => .group
        else .monoid
    | none => .semigroup
  else .magma

/-- `make_finite_algebra(name, description, elements, table[, table2])`:
duplicate-name check, table validation (`ShapeError`, modelled from the
spec), then the classification ladder.  `none` models a raised error. -/
def make_finite_algebra (elems : List String) (t : List (List Nat))
    (t2 : Option (List (List Nat))) : Option MadeAlg :=
  if get_duplicates elems ≠ [] then none
  else if tableOK elems.length t = false then none
  else
    match t2 with
    | some u =>
        if tableOK elems.length u = false then none
        else some ⟨ladder elems t (some u), elems, t, some u⟩
    | none => some ⟨ladder elems t none, elems, t, none⟩

/-- The identity element (name) of a constructed algebra, as set up by
`FiniteAlgebra.__init__` from `CayleyTable.identity`. -/
def algIdentity (m : MadeAlg) : Option String :=
  (tidentity m.table).bind fun e => m.elems.get? e

/-- Addition/multiplication tables of the integers modulo `n`, as produced by
`generate_prime_field` / `generate_commutative_ring`:
`[[(a+b) % order for b in range(order)] for a in range(order)]`. -/
def modAddTable (n : Nat) : List (List Nat) :=
  (List.range n).map fun a => (List.range n).map fun b => (a + b) % n

/-- `[[(a*b) % order for b in range(order)] for a in range(order)]`. -/
def modMulTable (n : Nat) : List (List Nat) :=
  (List.range n).map fun a => (List.range n).map fun b => (a * b) % n

/-- Element names `a0 … a4` used by `generate_prime_field(5)`. -/
def elems5 : List String := ["a0", "a1", "a2", "a3", "a4"]

/-! ## Basic lemmas about the embedding -/

theorem idxOf?_lt_length {α : Type} [DecidableEq α] {x : α} :
    ∀ {l : List α} {i : Nat}, idxOf? x l = some i → i < l.length := by
  intro l
  induction l with
  | nil => intro i h; simp [idxOf?] at h
  | cons a as ih =>
      intro i h
      by_cases hax : a = x
      · simp [idxOf?, hax] at h
        simp only [List.length_cons]
        omega
      · simp [idxOf?, hax] at h
        obtain ⟨j, hj, rfl⟩ := h
        have := ih hj
        simp only [List.length_cons]
        omega

theorem idxOf?_get? {α : Type} [DecidableEq α] {x : α} :
    ∀ {l : List α} {i : Nat}, idxOf? x l = some i → l.get? i = some x := by
  intro l
  induction l with
  | nil => intro i h; simp [idxOf?] at h
  | cons a as ih =>
      intro i h
      by_cases hax : a = x
      · simp [idxOf?, hax] at h
        subst h; simp [hax]
      · simp [idxOf?, hax] at h
        obtain ⟨j, hj, rfl⟩ := h
        simpa using ih hj

theorem idxOf?_isSome_of_mem {α : Type} [DecidableEq α] {x : α} :
    ∀ {l : List α}, x ∈ l → ∃ i, idxOf? x l = some i := by
  intro l
  induction l with
  | nil => intro h; simp at h
  | cons a as ih =>
      intro h
      by_cases hax : a = x
      · exact ⟨0, by simp [idxOf?, hax]⟩
      · have hx : x ∈ as := by
          rcases List.mem_cons.mp h with h1 | h1
          · exact absurd h1.symm hax
          · exact h1
        obtain ⟨i, hi⟩ := ih hx
        exact ⟨i + 1, by simp [idxOf?, hax, hi]⟩

theorem idxOf?_of_get?_nodup {α : Type} [DecidableEq α] :
    ∀ {l : List α}, l.Nodup → ∀ {i : Nat} {x : α}, l.get? i = some x → idxOf? x l = some i := by
  intro l
  induction l with
  | nil => intro _ i x h; simp at h
  | cons a as ih =>
      intro hnd i x h
      rcases List.nodup_cons.mp hnd with ⟨hna, hnd'⟩
      match i with
      | 0 =>
          rw [List.get?_cons_zero] at h
          have hax : a = x := by injection h
          simp [idxOf?, hax]
      | (j + 1) =>
          rw [List.get?_cons_succ] at h
          have hax : ¬ a = x := by
            intro hax
            exact hna (hax ▸ List.get?_mem h)
          simp [idxOf?, hax, ih hnd' h]

/-- Shape facts packaged from `tableOK`. -/
theorem tableOK_length {n : Nat} {t : List (List Nat)} (h : tableOK n t = true) :
    t.length = n := by
  simp [tableOK] at h
  exact h.1

theorem tableOK_row {n : Nat} {t : List (List Nat)} (h : tableOK n t = true)
    {i : Nat} (hi : i < n) : (rowOf t i).length = n ∧ ∀ v ∈ rowOf t i, v < n := by
  simp [tableOK] at h
  obtain ⟨hlen, hrows⟩ := h
  have hi' : i < t.length := by omega
  have hrow : rowOf t i = t.get ⟨i, hi'⟩ := by
    simp [rowOf, List.getD, List.get?_eq_getElem?, List.getElem?_eq_getElem hi',
      List.get_eq_getElem]
  have hmem : rowOf t i ∈ t := by
    rw [hrow]; exact List.get_mem t i hi'
  obtain ⟨h1, h2⟩ := hrows _ hmem
  exact ⟨h1, fun v hv => h2 v hv⟩

theorem tcell_lt {n : Nat} {t : List (List Nat)} (h : tableOK n t = true)
    {i j : Nat} (hi : i < n) (hj : j < n) : tcell t i j < n := by
  obtain ⟨hlen, hval⟩ := tableOK_row h hi
  have hj' : j < (rowOf t i).length := by omega
  have : tcell t i j = (rowOf t i).get ⟨j, hj'⟩ := by
    simp [tcell, List.getD, List.get?_eq_getElem?, List.getElem?_eq_getElem hj',
      List.get_eq_getElem]
  rw [this]
  exact hval _ (List.get_mem _ _ _)

theorem tcell_get? {n : Nat} {t : List (List Nat)} (h : tableOK n t = true)
    {i j : Nat} (hi : i < n) (hj : j < n) :
    ∃ row, t.get? i = some row ∧ row.get? j = some (tcell t i j) := by
  have hlen := tableOK_length h
  have hi' : i < t.length := by omega
  have hrowlen := (tableOK_row h hi).1
  have hj' : j < (rowOf t i).length := by omega
  refine ⟨rowOf t i, ?_, ?_⟩
  · simp [rowOf, List.getD, List.get?_eq_getElem?]
    simp [List.getElem?_eq_getElem hi']
  · simp [tcell, List.getD, List.get?_eq_getElem?]
    simp [List.getElem?_eq_getElem hj']

/-- Pointwise reading of `is_associative`. -/
theorem is_associative_iff {t : List (List Nat)} :
    is_associative t = true ↔
      ∀ a < t.length, ∀ b < t.length, ∀ c < t.length,
        tcell t (tcell t a b) c = tcell t a (tcell t b c) := by
  simp [is_associative, List.all_eq_true, List.mem_range]

/-- Pointwise reading of `isIdentityIndex`. -/
theorem isIdentityIndex_iff {t : List (List Nat)} {i : Nat} :
    isIdentityIndex t i = true ↔
      ∀ j < t.length, tcell t i j = j ∧ tcell t j i = j := by
  simp [isIdentityIndex, List.all_eq_true, List.mem_range]

/-- A two-sided identity index is unique. -/
theorem identityIndex_unique {t : List (List Nat)} {i j : Nat}
    (hi : i < t.length) (hj : j < t.length)
    (h1 : isIdentityIndex t i = true) (h2 : isIdentityIndex t j = true) : i = j := by
  have e1 := (isIdentityIndex_iff.mp h1 j hj).1
  have e2 := (isIdentityIndex_iff.mp h2 i hi).2
  omega

/-- Generic: `find?` over a list returns the unique witness of its predicate. -/
theorem find?_eq_of_unique {α : Type} {p : α → Bool} :
    ∀ {l : List α} {a : α}, a ∈ l → p a = true → (∀ b ∈ l, p b = true → b = a) →
      l.find? p = some a := by
  intro l
  induction l with
  | nil => intro a h; simp at h
  | cons x xs ih =>
      intro a ha hpa huniq
      by_cases hx : p x = true
      · have hxa : x = a := huniq x (List.mem_cons_self x xs) hx
        rw [List.find?_cons_of_pos _ hx, hxa]
      · have hx' : p x = false := by simpa using hx
        have ha' : a ∈ xs := by
          rcases List.mem_cons.mp ha with h1 | h1
          · subst h1; exact absurd hpa hx
          · exact h1
        rw [List.find?_cons_of_neg _ (by simp [hx'])]
        exact ih ha' hpa (fun b hb hpb => huniq b (List.mem_cons_of_mem x hb) hpb)

theorem tidentity_of_isIdentity {t : List (List Nat)} {i : Nat}
    (hi : i < t.length) (h : isIdentityIndex t i = true) : tidentity t = some i := by
  apply find?_eq_of_unique (List.mem_range.mpr hi) h
  intro b hb hpb
  exact identityIndex_unique (List.mem_range.mp hb) hi hpb h

theorem tidentity_spec {t : List (List Nat)} {e : Nat} (h : tidentity t = some e) :
    e < t.length ∧ isIdentityIndex t e = true := by
  refine ⟨List.mem_range.mp (List.mem_of_find?_eq_some h), List.find?_some h⟩

/-- Pointwise reading of `has_inverses`: identity exists and each row carries
it exactly once. -/
theorem has_inverses_spec {t : List (List Nat)} {e : Nat}
    (hid : tidentity t = some e) (h : has_inverses t = true) :
    ∀ i < t.length,
      ((List.range (rowOf t i).length).filter fun j => tcell t i j == e).length = 1 := by
  intro i hi
  rw [has_inverses, hid] at h
  rw [List.all_eq_true] at h
  have := h i (List.mem_range.mpr hi)
  simpa using this

/-- From a row's unique-occurrence property: existence and uniqueness of the
inverse column. -/
theorem row_unique_col {t : List (List Nat)} {e i : Nat}
    (h : ((List.range (rowOf t i).length).filter fun j => tcell t i j == e).length = 1) :
    ∃ j, j < (rowOf t i).length ∧ tcell t i j = e ∧
      ∀ k < (rowOf t i).length, tcell t i k = e → k = j := by
  obtain ⟨j, hj⟩ := List.length_eq_one.mp h
  have hjmem : j ∈ (List.range (rowOf t i).length).filter fun j => tcell t i j == e := by
    rw [hj]; exact List.mem_singleton.mpr rfl
  rw [List.mem_filter, List.mem_range] at hjmem
  refine ⟨j, hjmem.1, by simpa using hjmem.2, ?_⟩
  intro k hk hke
  have : k ∈ (List.range (rowOf t i).length).filter fun j => tcell t i j == e := by
    rw [List.mem_filter, List.mem_range]
    exact ⟨hk, by simpa using hke⟩
  rw [hj] at this
  exact List.mem_singleton.mp this

/-- `binOp` computed from indices, on a duplicate-free element list. -/
theorem binOp_eq_tcell {elems : List String} {t : List (List Nat)}
    (hnd : elems.Nodup) (hok : tableOK elems.length t = true)
    {i j : Nat} {a b : String}
    (hi : elems.get? i = some a) (hj : elems.get? j = some b) :
    binOp elems t a b = elems.get? (tcell t i j) := by
  have hilt : i < elems.length := (List.get?_eq_some.mp hi).choose
  have hjlt : j < elems.length := (List.get?_eq_some.mp hj).choose
  obtain ⟨row, hrow, hcell⟩ := tcell_get? hok hilt hjlt
  have hrow' : t[i]? = some row := by rw [← List.get?_eq_getElem?]; exact hrow
  have hcell' : row[j]? = some (tcell t i j) := by rw [← List.get?_eq_getElem?]; exact hcell
  simp [binOp, idxOf?_of_get?_nodup hnd hi, idxOf?_of_get?_nodup hnd hj, hrow', hcell',
    List.get?_eq_getElem?]

/-- `binOp` on two members of a duplicate-free element list succeeds and
returns a member. -/
theorem binOp_mem {elems : List String} {t : List (List Nat)}
    (hnd : elems.Nodup) (hok : tableOK elems.length t = true)
    {a b : String} (ha : a ∈ elems) (hb : b ∈ elems) :
    ∃ z, binOp elems t a b = some z ∧ z ∈ elems := by
  obtain ⟨i, hi⟩ := List.mem_iff_get?.mp ha
  obtain ⟨j, hj⟩ := List.mem_iff_get?.mp hb
  have hilt : i < elems.length := (List.get?_eq_some.mp hi).choose
  have hjlt : j < elems.length := (List.get?_eq_some.mp hj).choose
  have hlt := tcell_lt hok hilt hjlt
  refine ⟨elems.get ⟨tcell t i j, hlt⟩, ?_, List.get_mem _ _ _⟩
  rw [binOp_eq_tcell hnd hok hi hj]
  exact List.get?_eq_get hlt

theorem get_duplicates_eq_nil {elems : List String} (h : elems.Nodup) :
    get_duplicates elems = [] := by
  rw [get_duplicates, List.filter_eq_nil_iff]
  intro a _
  have := List.nodup_iff_count_le_one.mp h a
  simp
  omega

/-! ## C1: the classification ladder's Ring branch -/

/-- C1 (amended): whenever the primary table is associative with an identity
and inverses, and a second, associative table is supplied, the classifier
returns a Ring — it never demands (nor re-checks) commutativity of addition
or distributivity, and the stubbed `is_field` check keeps it from returning a
Field. -/
theorem ladder_ring_branch (elems : List String) (t t2 : List (List Nat))
    (hnd : elems.Nodup) (hok : tableOK elems.length t = true)
    (hok2 : tableOK elems.length t2 = true)
    (ha : is_associative t = true) (hid : (tidentity t).isSome = true)
    (hinv : has_inverses t = true) (ha2 : is_associative t2 = true) :
    (make_finite_algebra elems t (some t2)).map MadeAlg.kind = some AlgKind.ring := by
  obtain ⟨e, he⟩ := Option.isSome_iff_exists.mp hid
  simp [make_finite_algebra, get_duplicates_eq_nil hnd, hok, hok2, ladder, ha, he, hinv,
    ha2, is_field]

/-- C1 witness: the ladder applied to the two-element field-like tables
(xor addition, conjunction multiplication) yields a Ring. -/
theorem ladder_ring_branch_witness :
    (["0", "1"] : List String).Nodup ∧ tableOK 2 [[0, 1], [1, 0]] = true ∧
    tableOK 2 [[0, 0], [0, 1]] = true ∧ is_associative [[0, 1], [1, 0]] = true ∧
    (tidentity [[0, 1], [1, 0]]).isSome = true ∧ has_inverses [[0, 1], [1, 0]] = true ∧
    is_associative [[0, 0], [0, 1]] = true ∧
    (make_finite_algebra ["0", "1"] [[0, 1], [1, 0]] (some [[0, 0], [0, 1]])).map MadeAlg.kind
      = some AlgKind.ring :=
  ⟨by decide, by decide, by decide, by decide, by decide, by decide, by decide,
    ladder_ring_branch ["0", "1"] [[0, 1], [1, 0]] [[0, 0], [0, 1]]
      (by decide) (by decide) (by decide) (by decide) (by decide) (by decide) (by decide)⟩

/-- C1 counterexample: with xor as table and the constant-1 table as table2
(associative but *not* distributive over xor), `make_finite_algebra` still
returns a Ring, so the returned Ring need not satisfy all Ring axioms and is
not the most specific structure whose axioms the tables satisfy. -/
theorem ladder_ring_not_distributive :
    (make_finite_algebra ["0", "1"] [[0, 1], [1, 0]] (some [[1, 1], [1, 1]])).map MadeAlg.kind
      = some AlgKind.ring ∧
    distributes_over [[1, 1], [1, 1]] [[0, 1], [1, 0]] = false := by decide

/-! ## C2: integers mod 5 -/

/-- C2 counterexample: on the order-5 tables over the integers mod 5 the
classifier does **not** return a Field (the `is_field` stub always answers
"no"). -/
theorem z5_not_field :
    (make_finite_algebra elems5 (modAddTable 5) (some (modMulTable 5))).map MadeAlg.kind
      ≠ some AlgKind.field := by decide

/-- C2 (amended): on the order-5 tables over the integers mod 5 the
classifier returns a Ring. -/
theorem z5_is_ring :
    (make_finite_algebra elems5 (modAddTable 5) (some (modMulTable 5))).map MadeAlg.kind
      = some AlgKind.ring := by decide

/-! ## The Group inverse-lookup dictionary (C3) -/

/-- `np.where(table == e)` in row-major order: the list of index pairs whose
cell equals `e`. -/
def whereEq (t : List (List Nat)) (e : Nat) : List (Nat × Nat) :=
  (List.range t.length).flatMap fun i =>
    ((List.range (rowOf t i).length).filter fun j => tcell t i j == e).map fun j => (i, j)

theorem mem_whereEq {t : List (List Nat)} {e : Nat} {p : Nat × Nat} :
    p ∈ whereEq t e ↔
      p.1 < t.length ∧ p.2 < (rowOf t p.1).length ∧ tcell t p.1 p.2 = e := by
  obtain ⟨i, j⟩ := p
  constructor
  · intro h
    simp only [whereEq, List.mem_flatMap, List.mem_map, List.mem_filter, List.mem_range] at h
    obtain ⟨i', hi', j', ⟨hj', hc⟩, heq⟩ := h
    injection heq with h1 h2
    subst h1; subst h2
    exact ⟨hi', hj', by simpa using hc⟩
  · intro h
    obtain ⟨hi, hj, hc⟩ := h
    simp only [whereEq, List.mem_flatMap, List.mem_map, List.mem_filter, List.mem_range]
    exact ⟨i, hi, j, ⟨hj, by simpa using hc⟩, rfl⟩

/-- The dictionary comprehension
`{elements[i]: elements[j] for (i, j) in zip(rows, cols)}`: later entries
overwrite earlier ones; lookup of a missing key is `none` (`KeyError`). -/
def dictLookup (pairs : List (Nat × Nat)) (elems : List String) (x : String) : Option String :=
  pairs.foldl
    (fun acc p => if elems.getD p.1 "" = x then some (elems.getD p.2 "") else acc) none

theorem dictFold_stable (elems : List String) (x v : String) :
    ∀ (pairs : List (Nat × Nat)) (acc : Option String),
      (∀ q ∈ pairs, elems.getD q.1 "" = x → elems.getD q.2 "" = v) →
      acc = some v →
      pairs.foldl
        (fun acc p => if elems.getD p.1 "" = x then some (elems.getD p.2 "") else acc) acc
        = some v := by
  intro pairs
  induction pairs with
  | nil => intro acc _ h2; simpa using h2
  | cons q rest ih =>
      intro acc h1 h2
      simp only [List.foldl_cons]
      by_cases hq : elems.getD q.1 "" = x
      · refine ih _ (fun r hr hrx => h1 r (List.mem_cons_of_mem q hr) hrx) ?_
        rw [if_pos hq, h1 q (List.mem_cons_self q rest) hq]
      · refine ih _ (fun r hr hrx => h1 r (List.mem_cons_of_mem q hr) hrx) ?_
        rw [if_neg hq]; exact h2

theorem dictLookup_unique {elems : List String} {x : String} {p : Nat × Nat} :
    ∀ {pairs : List (Nat × Nat)}, p ∈ pairs → elems.getD p.1 "" = x →
      (∀ q ∈ pairs, elems.getD q.1 "" = x → q = p) →
      dictLookup pairs elems x = some (elems.getD p.2 "") := by
  intro pairs
  induction pairs with
  | nil => intro h; simp at h
  | cons q rest ih =>
      intro hmem hkey huniq
      by_cases hq : elems.getD q.1 "" = x
      · have hqp : q = p := huniq q (List.mem_cons_self q rest) hq
        subst hqp
        simp only [dictLookup, List.foldl_cons]
        rw [if_pos hq]
        exact dictFold_stable elems x _ rest _
          (fun r hr hrx => by rw [huniq r (List.mem_cons_of_mem q hr) hrx]) rfl
      · have hp : p ∈ rest := by
          rcases List.mem_cons.mp hmem with h1 | h1
          · subst h1; exact absurd hkey hq
          · exact h1
        have hstep : dictLookup (q :: rest) elems x = dictLookup rest elems x := by
          simp only [dictLookup, List.foldl_cons]
          rw [if_neg hq]
        rw [hstep]
        exact ih hp hkey (fun r hr hrx => huniq r (List.mem_cons_of_mem q hr) hrx)

/-- `Group.__create_inverse_lookup_dict` followed by `Group.inv`: look up the
element in the dictionary built from `np.where(table == identity)`. -/
def groupInv (elems : List String) (t : List (List Nat)) (x : String) : Option String :=
  match tidentity t with
  | some e => dictLookup (whereEq t e) elems x
  | none => none

theorem getD_eq_of_get? {α : Type} {d : α} {l : List α} {i : Nat} {x : α}
    (h : l.get? i = some x) : l.getD i d = x := by
  rw [List.get?_eq_getElem?] at h
  simp [List.getD, h]

theorem get?_eq_getD_of_lt {α : Type} (d : α) {l : List α} {i : Nat} (h : i < l.length) :
    l.get? i = some (l.getD i d) := by
  rw [List.get?_eq_getElem?]
  simp [List.getD, List.getElem?_eq_getElem h]

/-- In an associative table with a two-sided identity in which every element
has a right inverse, a right inverse is also a left inverse:
`b∘a = (b∘a)∘(b∘c) = ((b∘a)∘b)∘c = (b∘(a∘b))∘c = b∘c = e`. -/
theorem right_inv_left_inv {n : Nat} {t : List (List Nat)}
    (hok : tableOK n t = true) (hassoc : is_associative t = true)
    {e : Nat} (hid : isIdentityIndex t e = true)
    {a b c : Nat} (ha : a < n) (hb : b < n) (hc : c < n)
    (hab : tcell t a b = e) (hbc : tcell t b c = e) : tcell t b a = e := by
  have hlen := tableOK_length hok
  have assoc : ∀ x, x < n → ∀ y, y < n → ∀ z, z < n →
      tcell t (tcell t x y) z = tcell t x (tcell t y z) := by
    intro x hx y hy z hz
    exact is_associative_iff.mp hassoc x (by omega) y (by omega) z (by omega)
  have idR : ∀ j, j < n → tcell t j e = j := by
    intro j hj
    exact (isIdentityIndex_iff.mp hid j (by omega)).2
  have hba : tcell t b a < n := tcell_lt hok hb ha
  have h1 : tcell t (tcell t b a) b = b := by
    rw [assoc b hb a ha b hb, hab, idR b hb]
  calc tcell t b a = tcell t (tcell t b a) e := (idR _ hba).symm
    _ = tcell t (tcell t b a) (tcell t b c) := by rw [hbc]
    _ = tcell t (tcell t (tcell t b a) b) c := (assoc (tcell t b a) hba b hb c hc).symm
    _ = tcell t b c := by rw [h1]
    _ = e := hbc

/-- C3: for a Group built from a valid group table (associative, two-sided
identity, identity occurring exactly once in each row), `Group.inv` returns a
two-sided inverse: `op(a, inv(a)) = identity = op(inv(a), a)`. -/
theorem group_inv_two_sided (elems : List String) (t : List (List Nat))
    (hnd : elems.Nodup) (hok : tableOK elems.length t = true)
    (hassoc : is_associative t = true) (e : Nat) (hid : tidentity t = some e)
    (hinv : has_inverses t = true) (a : String) (ha : a ∈ elems) :
    ∃ b idn, elems.get? e = some idn ∧ groupInv elems t a = some b ∧
      binOp elems t a b = some idn ∧ binOp elems t b a = some idn := by
  have hlen := tableOK_length hok
  obtain ⟨helt, hide⟩ := tidentity_spec hid
  have hen : e < elems.length := by omega
  obtain ⟨i, hi⟩ := List.mem_iff_get?.mp ha
  have hilt : i < elems.length := (List.get?_eq_some.mp hi).choose
  have hrowi := has_inverses_spec hid hinv i (by omega)
  obtain ⟨j0, hj0r, hcell, huniq⟩ := row_unique_col hrowi
  have hrowlen : (rowOf t i).length = elems.length := (tableOK_row hok hilt).1
  have hj0lt : j0 < elems.length := by omega
  have hb : elems.get? j0 = some (elems.get ⟨j0, hj0lt⟩) := List.get?_eq_get hj0lt
  have hidn : elems.get? e = some (elems.get ⟨e, hen⟩) := List.get?_eq_get hen
  refine ⟨elems.get ⟨j0, hj0lt⟩, elems.get ⟨e, hen⟩, hidn, ?_, ?_, ?_⟩
  · -- the dictionary holds exactly one entry keyed by `a`, namely `(i, j0)`
    rw [groupInv, hid]
    have hpmem : (i, j0) ∈ whereEq t e :=
      mem_whereEq.mpr ⟨(by omega : i < t.length), hj0r, hcell⟩
    have hkey : elems.getD (i, j0).1 "" = a := getD_eq_of_get? hi
    have hval : dictLookup (whereEq t e) elems a = some (elems.getD (i, j0).2 "") := by
      refine dictLookup_unique hpmem hkey ?_
      intro q hq hqkey
      obtain ⟨hq1, hq2, hqcell⟩ := mem_whereEq.mp hq
      have hq1lt : q.1 < elems.length := by omega
      have hq1get : elems.get? q.1 = some a := by
        rw [get?_eq_getD_of_lt "" hq1lt, hqkey]
      have e1 : idxOf? a elems = some i := idxOf?_of_get?_nodup hnd hi
      have e2 : idxOf? a elems = some q.1 := idxOf?_of_get?_nodup hnd hq1get
      have hq1i : q.1 = i := by
        rw [e1] at e2
        injection e2 with h
        omega
      have hq2' : q.2 < (rowOf t i).length := by rw [← hq1i]; exact hq2
      have hq2j0 : q.2 = j0 := huniq q.2 hq2' (by rw [← hq1i]; exact hqcell)
      obtain ⟨x, y⟩ := q
      simp only at hq1i hq2j0
      rw [hq1i, hq2j0]
    show dictLookup (whereEq t e) elems a = some (elems.get ⟨j0, hj0lt⟩)
    rw [hval]
    show some (elems.getD j0 "") = some (elems.get ⟨j0, hj0lt⟩)
    rw [getD_eq_of_get? hb]
  · rw [binOp_eq_tcell hnd hok hi hb, hcell]
    exact hidn
  · -- j0 itself has a right inverse; associativity turns it into `op(b, a) = e`
    have hrowj := has_inverses_spec hid hinv j0 (by omega)
    obtain ⟨c, hcr, hc2, _⟩ := row_unique_col hrowj
    have hrowlenj : (rowOf t j0).length = elems.length := (tableOK_row hok hj0lt).1
    have hleft : tcell t j0 i = e :=
      right_inv_left_inv hok hassoc hide hilt hj0lt (by omega) hcell hc2
    rw [binOp_eq_tcell hnd hok hb hi, hleft]
    exact hidn

/-! ## C9: `FiniteAlgebra.inv` for non-Group algebras -/

/-- `FiniteAlgebra.inv`: consult the private `__inverses` dictionary only
when `has_inverses()` holds, returning `None` for a missing key.
`FiniteAlgebra.__init__` initializes that dictionary to `{}`, and only the
`Group` constructor populates an inverse dictionary (under its own
name-mangled attribute), so Magma/Semigroup/Monoid instances always call
this with an empty dictionary. -/
def finAlgInv (t : List (List Nat)) (inverses : List (String × String)) (x : String) :
    Option String :=
  if has_inverses t = true then
    match inverses.find? (fun p => p.1 == x) with
    | some p => some p.2
    | none => none
  else none

/-- C9: for algebras constructed as Magma, Semigroup or Monoid the inverse
dictionary is empty, so `inv` returns `None` for every element and every
table — including tables for which `has_inverses()` is true, such as the
non-associative order-3 table shown. -/
theorem magma_inv_always_none :
    (∀ (t : List (List Nat)) (x : String), finAlgInv t [] x = none) ∧
    has_inverses [[0, 1, 2], [1, 0, 2], [2, 2, 0]] = true ∧
    is_associative [[0, 1, 2], [1, 0, 2], [2, 2, 0]] = false := by
  refine ⟨?_, by decide, by decide⟩
  intro t x
  by_cases h : has_inverses t = true <;> simp [finAlgInv, h]

/-! ## C4: the isomorphism candidate generators -/

/-- All ways of inserting an element into a list (helper for enumerating
permutations). -/
def insertsOf {α : Type} (a : α) : List α → List (List α)
  | [] => [[a]]
  | b :: bs => (a :: b :: bs) :: (insertsOf a bs).map (b :: ·)

/-- `itertools.permutations`: all permutations of a list.  (The enumeration
order differs from `itertools`' lexicographic-by-index order, but the
collection of candidates is the same.) -/
def permsOf {α : Type} : List α → List (List α)
  | [] => [[]]
  | a :: as => (permsOf as).flatMap (insertsOf a)

/-- `Magma.__element_mappings`: `dict(zip(self.elements, perm))` for every
permutation `perm` of the other algebra's elements — all `n!` bijections. -/
def magmaMappings (elemsA elemsB : List String) : List (List (String × String)) :=
  (permsOf elemsB).map fun perm => elemsA.zip perm

/-- `Monoid.__element_mappings` (the identity-fixing variant): zip the
non-identity elements with each permutation of the other algebra's
non-identity elements, then add `identity ↦ identity`. -/
def monoidMappings (elemsA elemsB : List String) (idA idB : String) :
    List (List (String × String)) :=
  (permsOf (elemsB.erase idB)).map fun perm =>
    ((elemsA.erase idA).zip perm) ++ [(idA, idB)]

/-- The candidate list actually traversed by `Magma.isomorphic`: because
`self.__element_mappings` name-mangles to `_Magma__element_mappings`,
`isomorphic` always uses the Magma variant — also on Monoids and Groups,
whose `_Monoid__element_mappings` override it never calls. -/
def isomorphicCandidates (elemsA elemsB : List String) : List (List (String × String)) :=
  magmaMappings elemsA elemsB

/-- C4: on the order-2 monoid with elements `e, a` (identity `e`),
`isomorphic` enumerates all `2! = 2` bijections, among them the candidate
sending the identity `e` to the non-identity `a` — not the `1! = 1`
identity-fixing candidates of the (unreachable) Monoid variant. -/
theorem isomorphic_tries_all_bijections :
    (isomorphicCandidates ["e", "a"] ["e", "a"]).length = 2 ∧
    [("e", "a"), ("a", "e")] ∈ isomorphicCandidates ["e", "a"] ["e", "a"] ∧
    (monoidMappings ["e", "a"] ["e", "a"] "e" "e").length = 1 := by decide

/-! ## The `closure` fixed point (C5, C6) -/

/-- An already-constructed algebra as seen by the derived operations:
element names, primary table, and the object's `inv` method —
`FiniteAlgebra.inv` (constantly `none`, see C9) for Magma/Semigroup/Monoid
instances, the dictionary lookup `groupInv` for Group instances. -/
structure Alg where
  elems : List String
  table : List (List Nat)
  invf : String → Option String

/-- `self.op(a, b)` of a constructed algebra. -/
def opName (alg : Alg) (a b : String) : Option String :=
  binOp alg.elems alg.table a b

/-- Run a fallible function over a list, failing (like a Python loop that
raises) as soon as one element fails. -/
def seqMap {α β : Type} (f : α → Option β) : List α → Option (List β)
  | [] => some []
  | x :: xs => do
      let y ← f x
      let ys ← seqMap f xs
      some (y :: ys)

/-- `itertools.product(l1, l2)`: all ordered pairs, row-major. -/
def dpPairs {α β : Type} (l1 : List α) (l2 : List β) : List (α × β) :=
  match l1 with
  | [] => []
  | a :: as => (l2.map fun b => (a, b)) ++ dpPairs as l2

/-- Add each element of `xs` to the set `base` (Python `set.add`); Python
sets are modelled as duplicate-free lists. -/
def insertAll {α : Type} [DecidableEq α] (base : List α) (xs : List α) : List α :=
  xs.foldl (fun acc x => acc.insert x) base

/-- The inverse phase of `Magma.closure`: when the table has inverses, add
`self.inv(elem)` for each element of the input subset.  A `none` from `invf`
models the `KeyError` of `Group.inv` on an unknown element, and also the
`None` produced by `FiniteAlgebra.inv` on non-Group instances — in the
Python code that `None` lands in the working set and the subsequent product
loop then raises `ValueError` on every nonempty subset, so both paths end in
an error. -/
def closureInvPhase (alg : Alg) (subset : List String) : Option (List String) :=
  if has_inverses alg.table then
    (seqMap alg.invf subset).map (insertAll subset.dedup)
  else some subset.dedup

/-- One pass of `Magma.closure`: `result = set(subset)`, add inverses, then
add `self.op(*pair)` for every ordered pair of the working set. -/
def closureStep (alg : Alg) (subset : List String) : Option (List String) :=
  (closureInvPhase alg subset).bind fun result1 =>
    (seqMap (fun p => opName alg p.1 p.2) (dpPairs result1 result1)).map
      fun prods => insertAll result1 prods

/-- Result of the (recursively unbounded) Python `closure`: a value, a
raised error, or fuel exhaustion of the embedding. -/
inductive CloRes where
  | ok (resultSet : List String)
  | err
  | fuelOut
deriving DecidableEq, Repr

/-- `Magma.closure`, fuel-indexed: recurse while `len(result)` exceeds
`len(subset_of_elements)`. -/
def closureAux (alg : Alg) : Nat → List String → CloRes
  | 0, _ => .fuelOut
  | fuel + 1, subset =>
      match closureStep alg subset with
      | none => .err
      | some result2 =>
          if subset.length < result2.length then closureAux alg fuel result2
          else .ok result2

/-- `Magma.closure` with enough fuel for the worst case (the working set is
bounded by the element count and grows strictly at each recursive call, so
`|elements| + 2` levels always suffice — proved in `closureAux_sound`). -/
def closureOf (alg : Alg) (subset : List String) : CloRes :=
  closureAux alg (alg.elems.length + 2) subset

/-- Decidable totality of the algebra's `inv` method on its elements. -/
def invTotal (alg : Alg) : Bool :=
  alg.elems.all fun x =>
    match alg.invf x with
    | some y => alg.elems.contains y
    | none => false

theorem seqMap_some {α β : Type} {f : α → Option β} :
    ∀ {l : List α} {L : List β}, seqMap f l = some L →
      L.length = l.length ∧
      ∀ i x, l.get? i = some x → ∃ y, f x = some y ∧ L.get? i = some y := by
  intro l
  induction l with
  | nil =>
      intro L h
      simp [seqMap] at h
      subst h
      exact ⟨rfl, by intro i x hx; simp at hx⟩
  | cons a as ih =>
      intro L h
      simp only [seqMap] at h
      cases hfa : f a with
      | none => rw [hfa] at h; simp at h
      | some y =>
          rw [hfa] at h
          cases hrest : seqMap f as with
          | none => rw [hrest] at h; simp at h
          | some ys =>
              rw [hrest] at h
              simp at h
              subst h
              obtain ⟨hlen, hpt⟩ := ih hrest
              constructor
              · simp [hlen]
              · intro i x hx
                match i with
                | 0 =>
                    rw [List.get?_cons_zero] at hx
                    injection hx with hx
                    subst hx
                    exact ⟨y, hfa, by simp⟩
                | (j + 1) =>
                    rw [List.get?_cons_succ] at hx
                    obtain ⟨z, hz1, hz2⟩ := hpt j x hx
                    exact ⟨z, hz1, by simpa using hz2⟩

theorem seqMap_total {α β : Type} {f : α → Option β} :
    ∀ {l : List α}, (∀ x ∈ l, ∃ y, f x = some y) → ∃ L, seqMap f l = some L := by
  intro l
  induction l with
  | nil => intro _; exact ⟨[], rfl⟩
  | cons a as ih =>
      intro h
      obtain ⟨y, hy⟩ := h a (List.mem_cons_self a as)
      obtain ⟨L, hL⟩ := ih fun x hx => h x (List.mem_cons_of_mem a hx)
      exact ⟨y :: L, by simp [seqMap, hy, hL]⟩

theorem seqMap_mem_forward {α β : Type} {f : α → Option β} {l : List α} {L : List β}
    (h : seqMap f l = some L) {x : α} (hx : x ∈ l) :
    ∃ y, f x = some y ∧ y ∈ L := by
  obtain ⟨i, hi⟩ := List.mem_iff_get?.mp hx
  obtain ⟨y, hy1, hy2⟩ := (seqMap_some h).2 i x hi
  exact ⟨y, hy1, List.get?_mem hy2⟩

theorem seqMap_mem_backward {α β : Type} {f : α → Option β} {l : List α} {L : List β}
    (h : seqMap f l = some L) {y : β} (hy : y ∈ L) :
    ∃ x ∈ l, f x = some y := by
  obtain ⟨hlen, hpt⟩ := seqMap_some h
  obtain ⟨i, hi⟩ := List.mem_iff_get?.mp hy
  have hiL : i < L.length := (List.get?_eq_some.mp hi).choose
  have hil : i < l.length := by omega
  have hix : l.get? i = some (l.get ⟨i, hil⟩) := List.get?_eq_get hil
  obtain ⟨z, hz1, hz2⟩ := hpt i _ hix
  rw [hi] at hz2
  injection hz2 with hz2
  exact ⟨l.get ⟨i, hil⟩, List.get_mem l i hil, by rw [hz1, hz2]⟩

theorem dpPairs_length {α β : Type} :
    ∀ (l1 : List α) (l2 : List β), (dpPairs l1 l2).length = l1.length * l2.length := by
  intro l1 l2
  induction l1 with
  | nil => simp [dpPairs]
  | cons a as ih =>
      simp only [dpPairs, List.length_append, List.length_map, List.length_cons, ih]
      ring

theorem mem_dpPairs {α β : Type} {l2 : List β} {p : α × β} :
    ∀ {l1 : List α}, p ∈ dpPairs l1 l2 ↔ p.1 ∈ l1 ∧ p.2 ∈ l2 := by
  intro l1
  obtain ⟨x, y⟩ := p
  induction l1 with
  | nil => simp [dpPairs]
  | cons a as ih =>
      simp only [dpPairs, List.mem_append, List.mem_map, ih, List.mem_cons]
      constructor
      · rintro (⟨b, hb, heq⟩ | ⟨h1, h2⟩)
        · injection heq with e1 e2
          subst e1; subst e2
          exact ⟨Or.inl rfl, hb⟩
        · exact ⟨Or.inr h1, h2⟩
      · rintro ⟨h1 | h1, h2⟩
        · subst h1; exact Or.inl ⟨y, h2, rfl⟩
        · exact Or.inr ⟨h1, h2⟩

theorem mem_insertAll {x : String} :
    ∀ (xs base : List String), x ∈ insertAll base xs ↔ x ∈ base ∨ x ∈ xs := by
  intro xs
  induction xs with
  | nil => intro base; simp [insertAll]
  | cons a as ih =>
      intro base
      show x ∈ insertAll (base.insert a) as ↔ _
      rw [ih (base.insert a), List.mem_insert_iff]
      simp only [List.mem_cons]
      tauto

theorem insertAll_nodup :
    ∀ (xs base : List String), base.Nodup → (insertAll base xs).Nodup := by
  intro xs
  induction xs with
  | nil => intro base h; simpa [insertAll] using h
  | cons a as ih =>
      intro base h
      exact ih (base.insert a) h.insert

theorem insertAll_eq_self :
    ∀ (xs base : List String), (∀ x ∈ xs, x ∈ base) → insertAll base xs = base := by
  intro xs
  induction xs with
  | nil => intro base _; rfl
  | cons a as ih =>
      intro base h
      show insertAll (base.insert a) as = base
      rw [List.insert_of_mem (h a (List.mem_cons_self a as))]
      exact ih base fun x hx => h x (List.mem_cons_of_mem a hx)

theorem nodup_length_le {l l' : List String} (h : l.Nodup)
    (hsub : ∀ x ∈ l, x ∈ l') : l.length ≤ l'.length := by
  have h1 : l.toFinset.card = l.length := List.toFinset_card_of_nodup h
  have h2 : l.toFinset ⊆ l'.toFinset := fun x hx =>
    List.mem_toFinset.mpr (hsub x (List.mem_toFinset.mp hx))
  have h3 := Finset.card_le_card h2
  have h4 := l'.toFinset_card_le
  omega

theorem invTotal_spec {alg : Alg} (h : invTotal alg = true) :
    ∀ x ∈ alg.elems, ∃ y, alg.invf x = some y ∧ y ∈ alg.elems := by
  intro x hx
  rw [invTotal, List.all_eq_true] at h
  have := h x hx
  cases hv : alg.invf x with
  | none => rw [hv] at this; simp at this
  | some y =>
      rw [hv] at this
      simp at this
      exact ⟨y, rfl, by simpa using this⟩

/-- One `closure` pass succeeds on a subset of the element names and
produces a duplicate-free superset `R` inside the element set, together with
an intermediate working set `R1` (the set after the inverse phase) whose
pairwise products all land in `R`. -/
theorem closureStep_sound (alg : Alg) (hnd : alg.elems.Nodup)
    (hok : tableOK alg.elems.length alg.table = true)
    (hinv : has_inverses alg.table = true → invTotal alg = true)
    {subset : List String} (hsub : ∀ x ∈ subset, x ∈ alg.elems) :
    ∃ R, closureStep alg subset = some R ∧ R.Nodup ∧
      (∀ x ∈ subset, x ∈ R) ∧ (∀ x ∈ R, x ∈ alg.elems) ∧
      (has_inverses alg.table = true →
        ∀ x ∈ subset, ∃ y, alg.invf x = some y ∧ y ∈ R) ∧
      ∃ R1 : List String, (∀ x ∈ subset, x ∈ R1) ∧ (∀ x ∈ R1, x ∈ R) ∧
        (∀ x ∈ R1, ∀ y ∈ R1, ∃ z, opName alg x y = some z ∧ z ∈ R) := by
  -- the inverse phase
  have hphase : ∃ R1, closureInvPhase alg subset = some R1 ∧ R1.Nodup ∧
      (∀ x ∈ subset, x ∈ R1) ∧ (∀ x ∈ R1, x ∈ alg.elems) ∧
      (has_inverses alg.table = true →
        ∀ x ∈ subset, ∃ y, alg.invf x = some y ∧ y ∈ R1) := by
    by_cases hhi : has_inverses alg.table = true
    · have htot := invTotal_spec (hinv hhi)
      obtain ⟨invs, hinvs⟩ := seqMap_total fun x hx => (htot x (hsub x hx)).imp
        fun y hy => hy.1
      refine ⟨insertAll subset.dedup invs, ?_, ?_, ?_, ?_, ?_⟩
      · simp [closureInvPhase, hhi, hinvs]
      · exact insertAll_nodup invs subset.dedup (List.nodup_dedup subset)
      · intro x hx
        rw [mem_insertAll]
        exact Or.inl (List.mem_dedup.mpr hx)
      · intro x hx
        rw [mem_insertAll] at hx
        rcases hx with hx | hx
        · exact hsub x (List.mem_dedup.mp hx)
        · obtain ⟨u, hu, hux⟩ := seqMap_mem_backward hinvs hx
          obtain ⟨y, hy1, hy2⟩ := htot u (hsub u hu)
          rw [hy1] at hux
          injection hux with hux
          exact hux ▸ hy2
      · intro _ x hx
        obtain ⟨y, hy1, hy2⟩ := seqMap_mem_forward hinvs hx
        exact ⟨y, hy1, (mem_insertAll invs subset.dedup).mpr (Or.inr hy2)⟩
    · refine ⟨subset.dedup, ?_, List.nodup_dedup subset, ?_, ?_, ?_⟩
      · simp [closureInvPhase, hhi]
      · intro x hx; exact List.mem_dedup.mpr hx
      · intro x hx; exact hsub x (List.mem_dedup.mp hx)
      · intro h; exact absurd h hhi
  obtain ⟨R1, hR1, hR1nd, hsubR1, hR1el, hR1inv⟩ := hphase
  -- the product phase
  have hp : ∀ p ∈ dpPairs R1 R1, ∃ z, opName alg p.1 p.2 = some z := by
    intro p hp
    rw [mem_dpPairs] at hp
    obtain ⟨z, hz, _⟩ := binOp_mem hnd hok (hR1el p.1 hp.1) (hR1el p.2 hp.2)
    exact ⟨z, hz⟩
  obtain ⟨prods, hprods⟩ := seqMap_total hp
  refine ⟨insertAll R1 prods, ?_, insertAll_nodup prods R1 hR1nd, ?_, ?_, ?_, R1, hsubR1, ?_, ?_⟩
  · simp [closureStep, hR1, hprods]
  · intro x hx
    exact (mem_insertAll prods R1).mpr (Or.inl (hsubR1 x hx))
  · intro x hx
    rcases (mem_insertAll prods R1).mp hx with hx | hx
    · exact hR1el x hx
    · obtain ⟨p, hp, hpx⟩ := seqMap_mem_backward hprods hx
      rw [mem_dpPairs] at hp
      obtain ⟨z, hz1, hz2⟩ := binOp_mem hnd hok (hR1el p.1 hp.1) (hR1el p.2 hp.2)
      have hz1' : opName alg p.1 p.2 = some z := hz1
      rw [hz1'] at hpx
      injection hpx with hpx
      exact hpx ▸ hz2
  · intro hhi x hx
    obtain ⟨y, hy1, hy2⟩ := hR1inv hhi x hx
    exact ⟨y, hy1, (mem_insertAll prods R1).mpr (Or.inl hy2)⟩
  · intro x hx
    exact (mem_insertAll prods R1).mpr (Or.inl hx)
  · intro x hx y hy
    have hpmem : (x, y) ∈ dpPairs R1 R1 := mem_dpPairs.mpr ⟨hx, hy⟩
    obtain ⟨z, hz1, hz2⟩ := seqMap_mem_forward hprods hpmem
    exact ⟨z, hz1, (mem_insertAll prods R1).mpr (Or.inr hz2)⟩

theorem closureAux_succ (alg : Alg) (fuel : Nat) (subset R : List String)
    (h : closureStep alg subset = some R) :
    closureAux alg (fuel + 1) subset =
      if subset.length < R.length then closureAux alg fuel R else .ok R := by
  simp only [closureAux, h]

/-- The recursion of `Magma.closure` always terminates with fuel
`|elements| + 2`, producing a duplicate-free superset of the input inside
the element set; when the input list is duplicate-free the result is closed
under the operation (and under the inverse map when the table has
inverses). -/
theorem closureAux_sound (alg : Alg) (hnd : alg.elems.Nodup)
    (hok : tableOK alg.elems.length alg.table = true)
    (hinv : has_inverses alg.table = true → invTotal alg = true) :
    ∀ fuel subset, (∀ x ∈ subset, x ∈ alg.elems) →
      alg.elems.length + 1 ≤ fuel + min subset.length alg.elems.length →
      ∃ T, closureAux alg fuel subset = .ok T ∧ T.Nodup ∧
        (∀ x ∈ subset, x ∈ T) ∧ (∀ x ∈ T, x ∈ alg.elems) ∧
        (subset.Nodup →
          (has_inverses alg.table = true → ∀ x ∈ T, ∃ y, alg.invf x = some y ∧ y ∈ T) ∧
          (∀ x ∈ T, ∀ y ∈ T, ∃ z, opName alg x y = some z ∧ z ∈ T)) := by
  intro fuel
  induction fuel with
  | zero =>
      intro subset hsub hbound
      exfalso
      have := Nat.min_le_right subset.length alg.elems.length
      omega
  | succ fuel ih =>
      intro subset hsub hbound
      obtain ⟨R, hstep, hRnd, hsubR, hRel, hinvs, R1, hsubR1, hR1R, hprodR⟩ :=
        closureStep_sound alg hnd hok hinv hsub
      rw [closureAux_succ alg fuel subset R hstep]
      by_cases hgrow : subset.length < R.length
      · rw [if_pos hgrow]
        have hRlen : R.length ≤ alg.elems.length := nodup_length_le hRnd hRel
        have hbound' :
            alg.elems.length + 1 ≤ fuel + min R.length alg.elems.length := by
          have h1 : min R.length alg.elems.length = R.length := Nat.min_eq_left hRlen
          have h2 := Nat.min_le_left subset.length alg.elems.length
          omega
        obtain ⟨T, hT, hTnd, hRT, hTel, hTcl⟩ := ih R hRel hbound'
        refine ⟨T, hT, hTnd, fun x hx => hRT x (hsubR x hx), hTel, fun _ => hTcl hRnd⟩
      · rw [if_neg hgrow]
        refine ⟨R, rfl, hRnd, hsubR, hRel, ?_⟩
        intro hsnd
        -- no growth: `R` has the same members as the (duplicate-free) input
        have hlenR : R.length ≤ subset.length := by omega
        have hRsubset : ∀ x ∈ R, x ∈ subset := by
          have h1 : subset.toFinset ⊆ R.toFinset := fun x hx =>
            List.mem_toFinset.mpr (hsubR x (List.mem_toFinset.mp hx))
          have h2 : R.toFinset.card ≤ subset.toFinset.card := by
            rw [List.toFinset_card_of_nodup hRnd, List.toFinset_card_of_nodup hsnd]
            exact hlenR
          have h3 := Finset.eq_of_subset_of_card_le h1 h2
          intro x hx
          exact List.mem_toFinset.mp (h3 ▸ List.mem_toFinset.mpr hx)
        constructor
        · intro hhi x hx
          exact hinvs hhi x (hRsubset x hx)
        · intro x hx y hy
          exact hprodR x (hsubR1 x (hRsubset x hx)) y (hsubR1 y (hRsubset y hy))

/-- A set that is already closed (under the operation and, when applicable,
inverses) is a fixed point of a `closure` pass. -/
theorem closure_fixed (alg : Alg) {T : List String} (hTnd : T.Nodup)
    (hinvcl : has_inverses alg.table = true → ∀ x ∈ T, ∃ y, alg.invf x = some y ∧ y ∈ T)
    (hopcl : ∀ x ∈ T, ∀ y ∈ T, ∃ z, opName alg x y = some z ∧ z ∈ T)
    {fuel : Nat} (hf : 0 < fuel) : closureAux alg fuel T = .ok T := by
  have hded : T.dedup = T := List.dedup_eq_self.mpr hTnd
  have hphase : closureInvPhase alg T = some T := by
    by_cases hhi : has_inverses alg.table = true
    · obtain ⟨invs, hinvs⟩ := seqMap_total fun x hx => (hinvcl hhi x hx).imp fun y hy => hy.1
      have hinvsT : ∀ v ∈ invs, v ∈ T := by
        intro v hv
        obtain ⟨u, hu, huv⟩ := seqMap_mem_backward hinvs hv
        obtain ⟨y, hy1, hy2⟩ := hinvcl hhi u hu
        rw [hy1] at huv
        injection huv with huv
        exact huv ▸ hy2
      simp [closureInvPhase, hhi, hinvs, hded, insertAll_eq_self invs T hinvsT]
    · simp [closureInvPhase, hhi, hded]
  have hp : ∀ p ∈ dpPairs T T, ∃ z, opName alg p.1 p.2 = some z := by
    intro p hp
    rw [mem_dpPairs] at hp
    exact (hopcl p.1 hp.1 p.2 hp.2).imp fun z hz => hz.1
  obtain ⟨prods, hprods⟩ := seqMap_total hp
  have hprodsT : ∀ v ∈ prods, v ∈ T := by
    intro v hv
    obtain ⟨p, hpm, hpv⟩ := seqMap_mem_backward hprods hv
    rw [mem_dpPairs] at hpm
    obtain ⟨z, hz1, hz2⟩ := hopcl p.1 hpm.1 p.2 hpm.2
    rw [hz1] at hpv
    injection hpv with hpv
    exact hpv ▸ hz2
  have hstep : closureStep alg T = some T := by
    simp [closureStep, hphase, hprods, insertAll_eq_self prods T hprodsT]
  match fuel, hf with
  | fuel + 1, _ =>
      rw [closureAux_succ alg fuel T T hstep]
      simp

/-! ### The C5 / C6 theorems -/

/-- C6 (amended): for every algebra whose `inv` method yields an element for
every element whenever `has_inverses()` is true (Groups in particular, and
every algebra without inverses), and every list of the algebra's element
names, the recursive `closure` terminates with a superset of the input;
when the input list is duplicate-free the returned set is moreover closed
under the operation and (when the algebra has them) under inverses.  For
lists with duplicates the computation still terminates but may stop before
reaching a closed set. -/
theorem closure_terminates (alg : Alg) (hnd : alg.elems.Nodup)
    (hok : tableOK alg.elems.length alg.table = true)
    (hinv : has_inverses alg.table = true → invTotal alg = true)
    (subset : List String) (hsub : ∀ x ∈ subset, x ∈ alg.elems) :
    ∃ T, closureOf alg subset = .ok T ∧ (∀ x ∈ subset, x ∈ T) ∧
      (subset.Nodup →
        (has_inverses alg.table = true → ∀ x ∈ T, ∃ y, alg.invf x = some y ∧ y ∈ T) ∧
        (∀ x ∈ T, ∀ y ∈ T, ∃ z, opName alg x y = some z ∧ z ∈ T)) := by
  obtain ⟨T, hT, _, hsubT, _, hcl⟩ := closureAux_sound alg hnd hok hinv
    (alg.elems.length + 2) subset hsub (by omega)
  exact ⟨T, hT, hsubT, hcl⟩

/-- C6 witness: the cyclic group of order 4 on the subset `[a]`. -/
theorem closure_terminates_witness :
    (∀ x ∈ ["a"], x ∈ (Alg.mk ["e", "a", "a^2", "a^3"]
        [[0, 1, 2, 3], [1, 2, 3, 0], [2, 3, 0, 1], [3, 0, 1, 2]]
        (groupInv ["e", "a", "a^2", "a^3"]
          [[0, 1, 2, 3], [1, 2, 3, 0], [2, 3, 0, 1], [3, 0, 1, 2]])).elems) ∧
    ∃ T, closureOf (Alg.mk ["e", "a", "a^2", "a^3"]
        [[0, 1, 2, 3], [1, 2, 3, 0], [2, 3, 0, 1], [3, 0, 1, 2]]
        (groupInv ["e", "a", "a^2", "a^3"]
          [[0, 1, 2, 3], [1, 2, 3, 0], [2, 3, 0, 1], [3, 0, 1, 2]])) ["a"] = .ok T ∧
      (∀ x ∈ ["a"], x ∈ T) ∧
      ((["a"] : List String).Nodup →
        (has_inverses [[0, 1, 2, 3], [1, 2, 3, 0], [2, 3, 0, 1], [3, 0, 1, 2]] = true →
          ∀ x ∈ T, ∃ y, groupInv ["e", "a", "a^2", "a^3"]
            [[0, 1, 2, 3], [1, 2, 3, 0], [2, 3, 0, 1], [3, 0, 1, 2]] x = some y ∧ y ∈ T) ∧
        (∀ x ∈ T, ∀ y ∈ T, ∃ z, opName (Alg.mk ["e", "a", "a^2", "a^3"]
            [[0, 1, 2, 3], [1, 2, 3, 0], [2, 3, 0, 1], [3, 0, 1, 2]]
            (groupInv ["e", "a", "a^2", "a^3"]
              [[0, 1, 2, 3], [1, 2, 3, 0], [2, 3, 0, 1], [3, 0, 1, 2]])) x y = some z ∧ z ∈ T)) :=
  ⟨by decide,
    closure_terminates _ (by decide) (by decide) (fun _ => by decide) ["a"] (by decide)⟩

/-- C6 counterexample: on a Magma and a duplicate-bearing input list, the
returned set is not closed — the recursion stops as soon as the working
set's size no longer exceeds the *list* length of the input, and duplicates
inflate that length.  Here `closure(['x','x'])` returns `{x, y}` although
`x∘y = z` is outside it. -/
theorem closure_dup_not_closed :
    (∀ x ∈ ["x", "x"], x ∈ (Alg.mk ["x", "y", "z"]
        [[1, 2, 0], [0, 0, 0], [0, 0, 0]] (fun _ => none)).elems) ∧
    closureOf (Alg.mk ["x", "y", "z"] [[1, 2, 0], [0, 0, 0], [0, 0, 0]] (fun _ => none))
        ["x", "x"] = CloRes.ok ["y", "x"] ∧
    opName (Alg.mk ["x", "y", "z"] [[1, 2, 0], [0, 0, 0], [0, 0, 0]] (fun _ => none))
        "x" "y" = some "z" ∧
    ("z" ∉ (["y", "x"] : List String)) := by decide

/-- C5 (amended): for every algebra whose `inv` method is total on its
elements whenever `has_inverses()` is true (Groups in particular, and every
algebra without inverses), `closure` is idempotent on duplicate-free
subsets of the element names: `closure(closure(S)) == closure(S)`. -/
theorem closure_idempotent (alg : Alg) (hnd : alg.elems.Nodup)
    (hok : tableOK alg.elems.length alg.table = true)
    (hinv : has_inverses alg.table = true → invTotal alg = true)
    (S : List String) (hS : ∀ x ∈ S, x ∈ alg.elems) (hSnd : S.Nodup) :
    ∃ T, closureOf alg S = .ok T ∧ closureOf alg T = .ok T := by
  obtain ⟨T, hT, hTnd, _, _, hcl⟩ := closureAux_sound alg hnd hok hinv
    (alg.elems.length + 2) S hS (by omega)
  obtain ⟨hinvcl, hopcl⟩ := hcl hSnd
  exact ⟨T, hT, closure_fixed alg hTnd hinvcl hopcl (by omega)⟩

/-- C5 witness: the cyclic group of order 4 on the subset `[a^2]`. -/
theorem closure_idempotent_witness :
    (∀ x ∈ ["a^2"], x ∈ (Alg.mk ["e", "a", "a^2", "a^3"]
        [[0, 1, 2, 3], [1, 2, 3, 0], [2, 3, 0, 1], [3, 0, 1, 2]]
        (groupInv ["e", "a", "a^2", "a^3"]
          [[0, 1, 2, 3], [1, 2, 3, 0], [2, 3, 0, 1], [3, 0, 1, 2]])).elems) ∧
    (["a^2"] : List String).Nodup ∧
    ∃ T, closureOf (Alg.mk ["e", "a", "a^2", "a^3"]
        [[0, 1, 2, 3], [1, 2, 3, 0], [2, 3, 0, 1], [3, 0, 1, 2]]
        (groupInv ["e", "a", "a^2", "a^3"]
          [[0, 1, 2, 3], [1, 2, 3, 0], [2, 3, 0, 1], [3, 0, 1, 2]])) ["a^2"] = .ok T ∧
      closureOf (Alg.mk ["e", "a", "a^2", "a^3"]
        [[0, 1, 2, 3], [1, 2, 3, 0], [2, 3, 0, 1], [3, 0, 1, 2]]
        (groupInv ["e", "a", "a^2", "a^3"]
          [[0, 1, 2, 3], [1, 2, 3, 0], [2, 3, 0, 1], [3, 0, 1, 2]])) T = .ok T :=
  ⟨by decide, by decide,
    closure_idempotent _ (by decide) (by decide) (fun _ => by decide) ["a^2"]
      (by decide) (by decide)⟩

/-- C5 counterexample: a Magma whose table has an identity occurring exactly
once in every row (`has_inverses()` true) but which, not being a Group, has
an unpopulated inverse dictionary — `closure` then pushes `inv(elem) = None`
into its working set and the product loop raises, so
`closure(closure(S)) == closure(S)` does not even produce a set. -/
theorem closure_errs_on_magma_with_inverses :
    closureOf (Alg.mk ["e", "a", "b"] [[0, 1, 2], [1, 0, 2], [2, 2, 0]] (fun _ => none))
        ["a"] = CloRes.err ∧
    has_inverses [[0, 1, 2], [1, 0, 2], [2, 2, 0]] = true ∧
    is_associative [[0, 1, 2], [1, 0, 2], [2, 2, 0]] = false ∧
    "a" ∈ (Alg.mk ["e", "a", "b"] [[0, 1, 2], [1, 0, 2], [2, 2, 0]]
        (fun _ => none)).elems := by decide

/-! ## C7: the direct product `Magma.__mul__` -/

/-- `f"{elem[0]}:{elem[1]}"` — a product element's name, with the default
direct-product delimiter `:`. -/
def joinName (p : String × String) : String :=
  p.1 ++ ":" ++ p.2

/-- The product element-name list passed to `make_finite_algebra`. -/
def dpNames (A B : Alg) : List String :=
  (dpPairs A.elems B.elems).map joinName

/-- One product-table entry:
`dp_element_names.index((self.op(a[0], b[0]), other.op(a[1], b[1])))`. -/
def dpCell (A B : Alg) (a b : String × String) : Option Nat := do
  let x ← opName A a.1 b.1
  let y ← opName B a.2 b.2
  idxOf? (x, y) (dpPairs A.elems B.elems)

/-- One row of the direct-product table. -/
def dpRow (A B : Alg) (a : String × String) : Option (List Nat) :=
  seqMap (dpCell A B a) (dpPairs A.elems B.elems)

/-- The direct-product multiplication table. -/
def dpTable (A B : Alg) : Option (List (List Nat)) :=
  seqMap (dpRow A B) (dpPairs A.elems B.elems)

/-- `Magma.__mul__`: build the product element names and table, then hand
them to `make_finite_algebra`. -/
def dprod (A B : Alg) : Option MadeAlg :=
  (dpTable A B).bind fun t => make_finite_algebra (dpNames A B) t none

theorem dpCell_eq {A B : Alg} {a1 a2 b1 b2 x y : String}
    (hx : opName A a1 b1 = some x) (hy : opName B a2 b2 = some y) :
    dpCell A B (a1, a2) (b1, b2) = idxOf? (x, y) (dpPairs A.elems B.elems) := by
  simp [dpCell, hx, hy]

/-- In a duplicate-free element list, the identity index acts as a two-sided
identity at the name level. -/
theorem opName_id {C : Alg} (hnd : C.elems.Nodup)
    (hok : tableOK C.elems.length C.table = true)
    {iC : Nat} (hid : tidentity C.table = some iC) (hiC : iC < C.elems.length)
    {x : String} (hx : x ∈ C.elems) :
    opName C (C.elems.get ⟨iC, hiC⟩) x = some x ∧
    opName C x (C.elems.get ⟨iC, hiC⟩) = some x := by
  have hlen := tableOK_length hok
  obtain ⟨_, hide⟩ := tidentity_spec hid
  obtain ⟨jx, hjx⟩ := List.mem_iff_get?.mp hx
  have hjlt : jx < C.elems.length := (List.get?_eq_some.mp hjx).choose
  have hidp := isIdentityIndex_iff.mp hide jx (by omega)
  have hgi : C.elems.get? iC = some (C.elems.get ⟨iC, hiC⟩) := List.get?_eq_get hiC
  constructor
  · show binOp C.elems C.table _ _ = some x
    rw [binOp_eq_tcell hnd hok hgi hjx, hidp.1]
    exact hjx
  · show binOp C.elems C.table _ _ = some x
    rw [binOp_eq_tcell hnd hok hjx hgi, hidp.2]
    exact hjx

/-- C7 (amended): whenever the delimiter-joined product names are
duplicate-free (in particular whenever element names avoid the delimiter),
the direct product of an order-`m` and an order-`n` algebra is built and has
order `m * n`, and when both factors have identity elements the product's
identity is the pairing of the two identities. -/
theorem dprod_order_and_identity (A B : Alg)
    (hndA : A.elems.Nodup) (hndB : B.elems.Nodup)
    (hokA : tableOK A.elems.length A.table = true)
    (hokB : tableOK B.elems.length B.table = true)
    (hdp : (dpNames A B).Nodup) :
    ∃ M, dprod A B = some M ∧
      M.elems.length = A.elems.length * B.elems.length ∧
      ∀ iA iB, tidentity A.table = some iA → tidentity B.table = some iB →
        algIdentity M = some (A.elems.getD iA "" ++ ":" ++ B.elems.getD iB "") := by
  have hpnd : (dpPairs A.elems B.elems).Nodup := List.Nodup.of_map joinName hdp
  -- every product-table cell computes
  have hcell : ∀ a ∈ dpPairs A.elems B.elems, ∀ b ∈ dpPairs A.elems B.elems,
      ∃ v, dpCell A B a b = some v ∧ v < (dpPairs A.elems B.elems).length := by
    intro a ha b hb
    rw [mem_dpPairs] at ha hb
    obtain ⟨x, hx1, hx2⟩ := binOp_mem hndA hokA ha.1 hb.1
    obtain ⟨y, hy1, hy2⟩ := binOp_mem hndB hokB ha.2 hb.2
    have hxy : (x, y) ∈ dpPairs A.elems B.elems := mem_dpPairs.mpr ⟨hx2, hy2⟩
    obtain ⟨v, hv⟩ := idxOf?_isSome_of_mem hxy
    refine ⟨v, ?_, idxOf?_lt_length hv⟩
    have hx1' : opName A a.1 b.1 = some x := hx1
    have hy1' : opName B a.2 b.2 = some y := hy1
    simp [dpCell, hx1', hy1', hv]
  -- rows and the table compute
  have hrowt : ∀ a ∈ dpPairs A.elems B.elems, ∃ row, dpRow A B a = some row := by
    intro a ha
    exact seqMap_total fun b hb => (hcell a ha b hb).imp fun v hv => hv.1
  obtain ⟨t, ht⟩ := seqMap_total hrowt
  have htlen : t.length = (dpPairs A.elems B.elems).length := (seqMap_some ht).1
  -- the built table passes the (modelled) CayleyTable shape check
  have hok : tableOK (dpNames A B).length t = true := by
    have hnames : (dpNames A B).length = (dpPairs A.elems B.elems).length := by
      simp [dpNames]
    rw [tableOK]
    simp only [Bool.and_eq_true, beq_iff_eq, List.all_eq_true]
    refine ⟨by omega, ?_⟩
    intro row hrow
    obtain ⟨a, hamem, harow⟩ := seqMap_mem_backward ht hrow
    have hrlen : row.length = (dpPairs A.elems B.elems).length := (seqMap_some harow).1
    refine ⟨by omega, ?_⟩
    intro v hv
    obtain ⟨b, hbmem, hbv⟩ := seqMap_mem_backward harow hv
    obtain ⟨v', hv', hvlt⟩ := hcell a hamem b hbmem
    rw [hv'] at hbv
    injection hbv with hbv
    subst hbv
    simp only [decide_eq_true_eq]
    omega
  have hmk : make_finite_algebra (dpNames A B) t none =
      some ⟨ladder (dpNames A B) t none, dpNames A B, t, none⟩ := by
    rw [make_finite_algebra]
    rw [if_neg (by simp [get_duplicates_eq_nil hdp])]
    rw [if_neg (by simp [hok])]
  refine ⟨⟨ladder (dpNames A B) t none, dpNames A B, t, none⟩, ?_, ?_, ?_⟩
  · simp [dprod, dpTable, ht, hmk]
  · simp [dpNames, dpPairs_length]
  · -- identity pairing
    intro iA iB hidA hidB
    have hiA : iA < A.elems.length := by
      have := (tidentity_spec hidA).1
      have := tableOK_length hokA
      omega
    have hiB : iB < B.elems.length := by
      have := (tidentity_spec hidB).1
      have := tableOK_length hokB
      omega
    have hpr0mem : (A.elems.get ⟨iA, hiA⟩, B.elems.get ⟨iB, hiB⟩) ∈ dpPairs A.elems B.elems :=
      mem_dpPairs.mpr ⟨List.get_mem _ _ _, List.get_mem _ _ _⟩
    obtain ⟨k0, hk0⟩ := idxOf?_isSome_of_mem hpr0mem
    have hk0lt' : k0 < (dpPairs A.elems B.elems).length := idxOf?_lt_length hk0
    have hk0get := idxOf?_get? hk0
    -- the cell formula: entry (p, q) of t comes from `dpCell` on the pairs
    have htcell : ∀ p q (hp : p < (dpPairs A.elems B.elems).length)
        (hq : q < (dpPairs A.elems B.elems).length),
        ∀ v, dpCell A B ((dpPairs A.elems B.elems).get ⟨p, hp⟩)
            ((dpPairs A.elems B.elems).get ⟨q, hq⟩) = some v →
          tcell t p q = v := by
      intro p q hp hq v hv
      have hpget : (dpPairs A.elems B.elems).get? p =
          some ((dpPairs A.elems B.elems).get ⟨p, hp⟩) := List.get?_eq_get hp
      have hqget : (dpPairs A.elems B.elems).get? q =
          some ((dpPairs A.elems B.elems).get ⟨q, hq⟩) := List.get?_eq_get hq
      obtain ⟨row, hrow1, hrow2⟩ := (seqMap_some ht).2 p _ hpget
      obtain ⟨v', hv1, hv2⟩ := (seqMap_some hrow1).2 q _ hqget
      rw [hv] at hv1
      injection hv1 with hv1
      subst hv1
      have hrw : rowOf t p = row := by
        simp only [rowOf]
        exact getD_eq_of_get? hrow2
      rw [tcell, hrw]
      exact getD_eq_of_get? hv2
    -- the identity pair absorbs any pair in the product, on both sides
    have hrowid : ∀ q (hq : q < (dpPairs A.elems B.elems).length),
        dpCell A B (A.elems.get ⟨iA, hiA⟩, B.elems.get ⟨iB, hiB⟩)
            ((dpPairs A.elems B.elems).get ⟨q, hq⟩) = some q ∧
        dpCell A B ((dpPairs A.elems B.elems).get ⟨q, hq⟩)
            (A.elems.get ⟨iA, hiA⟩, B.elems.get ⟨iB, hiB⟩) = some q := by
      intro q hq
      have hqget : (dpPairs A.elems B.elems).get? q =
          some ((dpPairs A.elems B.elems).get ⟨q, hq⟩) := List.get?_eq_get hq
      have hqidx : idxOf? ((dpPairs A.elems B.elems).get ⟨q, hq⟩)
          (dpPairs A.elems B.elems) = some q := idxOf?_of_get?_nodup hpnd hqget
      have hprq12 := mem_dpPairs.mp (List.get_mem (dpPairs A.elems B.elems) q hq)
      have hA := opName_id hndA hokA hidA hiA hprq12.1
      have hB := opName_id hndB hokB hidB hiB hprq12.2
      constructor
      · show dpCell A B (A.elems.get ⟨iA, hiA⟩, B.elems.get ⟨iB, hiB⟩)
            (((dpPairs A.elems B.elems).get ⟨q, hq⟩).1,
             ((dpPairs A.elems B.elems).get ⟨q, hq⟩).2) = some q
        rw [dpCell_eq hA.1 hB.1]
        exact hqidx
      · show dpCell A B (((dpPairs A.elems B.elems).get ⟨q, hq⟩).1,
             ((dpPairs A.elems B.elems).get ⟨q, hq⟩).2)
            (A.elems.get ⟨iA, hiA⟩, B.elems.get ⟨iB, hiB⟩) = some q
        rw [dpCell_eq hA.2 hB.2]
        exact hqidx
    have hpr0k0 : (dpPairs A.elems B.elems).get ⟨k0, hk0lt'⟩ =
        (A.elems.get ⟨iA, hiA⟩, B.elems.get ⟨iB, hiB⟩) := by
      have hgk := List.get?_eq_get (l := dpPairs A.elems B.elems) hk0lt'
      rw [hk0get] at hgk
      injection hgk with h
      exact h.symm
    -- k0 is a two-sided identity index of the product table
    have hidk0 : isIdentityIndex t k0 = true := by
      rw [isIdentityIndex_iff]
      intro q hq
      have hq' : q < (dpPairs A.elems B.elems).length := by omega
      obtain ⟨hcl, hcr⟩ := hrowid q hq'
      constructor
      · have := htcell k0 q hk0lt' hq' q (by rw [hpr0k0]; exact hcl)
        omega
      · have := htcell q k0 hq' hk0lt' q (by rw [hpr0k0]; exact hcr)
        omega
    have hidt : tidentity t = some k0 := tidentity_of_isIdentity (by omega) hidk0
    show algIdentity _ = _
    rw [algIdentity]
    show (tidentity t).bind (fun e => (dpNames A B).get? e) = _
    rw [hidt]
    show (dpNames A B).get? k0 = _
    have hnames : (dpNames A B).get? k0 =
        some (joinName (A.elems.get ⟨iA, hiA⟩, B.elems.get ⟨iB, hiB⟩)) := by
      rw [dpNames, List.get?_eq_getElem?, List.getElem?_map]
      rw [List.get?_eq_getElem?] at hk0get
      rw [hk0get]
      rfl
    rw [hnames]
    have hgA : A.elems.getD iA "" = A.elems.get ⟨iA, hiA⟩ :=
      getD_eq_of_get? (List.get?_eq_get hiA)
    have hgB : B.elems.getD iB "" = B.elems.get ⟨iB, hiB⟩ :=
      getD_eq_of_get? (List.get?_eq_get hiB)
    rw [hgA, hgB]
    rfl

/-- C7 witness: the product of two copies of the cyclic group of order 2 has
order 4, with identity `e:e`. -/
theorem dprod_order_and_identity_witness :
    (dpNames (Alg.mk ["e", "a"] [[0, 1], [1, 0]] (fun _ => none))
        (Alg.mk ["e", "a"] [[0, 1], [1, 0]] (fun _ => none))).Nodup ∧
    ∃ M, dprod (Alg.mk ["e", "a"] [[0, 1], [1, 0]] (fun _ => none))
        (Alg.mk ["e", "a"] [[0, 1], [1, 0]] (fun _ => none)) = some M ∧
      M.elems.length = 2 * 2 ∧
      ∀ iA iB, tidentity [[0, 1], [1, 0]] = some iA → tidentity [[0, 1], [1, 0]] = some iB →
        algIdentity M = some ((["e", "a"] : List String).getD iA "" ++ ":" ++
          (["e", "a"] : List String).getD iB "") :=
  ⟨by decide,
    dprod_order_and_identity _ _ (by decide) (by decide) (by decide) (by decide) (by decide)⟩

/-- C7 counterexample: element names containing the delimiter make the
joined product names collide, so `make_finite_algebra` raises on duplicate
names and no direct product (of order `m * n` or otherwise) is returned. -/
theorem dprod_name_collision :
    dprod (Alg.mk ["x", "x:y"] [[0, 0], [0, 0]] (fun _ => none))
      (Alg.mk ["y", "y:y"] [[0, 0], [0, 0]] (fun _ => none)) = none := by decide

/-! ## C8: `Ring.zero_divisors` -/

/-- `delete_row_col`: `np.delete(np.delete(np_arr, row, 0), col, 1)`. -/
def delete_row_col (t : List (List Nat)) (r c : Nat) : List (List Nat) :=
  (t.eraseIdx r).map fun row => row.eraseIdx c

/-- `Ring.zero_divisors`: find the additive identity's index, delete its row
and column from the multiplication table, take the row/column index sets of
the remaining cells equal to the zero index, and map the union through
`elements[index + 1]`.  (The union's list order models Python's arbitrary
set order.) -/
def zero_divisors (elems : List String) (addT multT : List (List Nat)) :
    Option (List String) := do
  let e ← tidentity addT
  let znm ← elems.get? e
  let z ← idxOf? znm elems
  let reduced := delete_row_col multT z z
  let hits := whereEq reduced z
  let union := insertAll ((hits.map Prod.fst).dedup) ((hits.map Prod.snd).dedup)
  seqMap (fun i => elems.get? (i + 1)) union

/-- Claim-side definition, from the claim's words: `a` is a zero divisor iff
`a` is an element distinct from the additive identity and some element `b`
distinct from the additive identity has `a*b` or `b*a` equal to the additive
identity. -/
def spec_is_zero_divisor (elems : List String) (addT multT : List (List Nat))
    (a : String) : Bool :=
  match (tidentity addT).bind fun e => elems.get? e with
  | none => false
  | some z =>
      elems.contains a && !(a == z) &&
      elems.any fun b =>
        !(b == z) && (binOp elems multT a b == some z || binOp elems multT b a == some z)

/-- C8: on the Ring of integers mod 4 listed in the order `2, 3, 0, 1` (the
additive identity `0` sits at index 2, not 0), `zero_divisors` returns
`['3']`, but the unique zero divisor is `'2'` (`2*2 = 0`) and `'3'` is a
unit — `elements[index + 1]` mis-translates reduced-table indices whenever
the additive identity is not the first element.  The tables do form a Ring:
the classifier returns Ring and addition is commutative with multiplication
distributing over it. -/
theorem zero_divisors_misindexed :
    zero_divisors ["2", "3", "0", "1"]
        [[2, 3, 0, 1], [3, 0, 1, 2], [0, 1, 2, 3], [1, 2, 3, 0]]
        [[2, 0, 2, 0], [0, 3, 2, 1], [2, 2, 2, 2], [0, 1, 2, 3]] = some ["3"] ∧
    spec_is_zero_divisor ["2", "3", "0", "1"]
        [[2, 3, 0, 1], [3, 0, 1, 2], [0, 1, 2, 3], [1, 2, 3, 0]]
        [[2, 0, 2, 0], [0, 3, 2, 1], [2, 2, 2, 2], [0, 1, 2, 3]] "2" = true ∧
    spec_is_zero_divisor ["2", "3", "0", "1"]
        [[2, 3, 0, 1], [3, 0, 1, 2], [0, 1, 2, 3], [1, 2, 3, 0]]
        [[2, 0, 2, 0], [0, 3, 2, 1], [2, 2, 2, 2], [0, 1, 2, 3]] "3" = false ∧
    (make_finite_algebra ["2", "3", "0", "1"]
        [[2, 3, 0, 1], [3, 0, 1, 2], [0, 1, 2, 3], [1, 2, 3, 0]]
        (some [[2, 0, 2, 0], [0, 3, 2, 1], [2, 2, 2, 2], [0, 1, 2, 3]])).map MadeAlg.kind
      = some AlgKind.ring ∧
    is_commutative [[2, 3, 0, 1], [3, 0, 1, 2], [0, 1, 2, 3], [1, 2, 3, 0]] = true ∧
    distributes_over [[2, 0, 2, 0], [0, 3, 2, 1], [2, 2, 2, 2], [0, 1, 2, 3]]
        [[2, 3, 0, 1], [3, 0, 1, 2], [0, 1, 2, 3], [1, 2, 3, 0]] = true := by decide

/-! ## C10: `Monoid.element_order` -/

/-- Result of the (unboundedly recursive) `order_aux`: a value, a raised
error, or fuel exhaustion — the last models non-termination. -/
inductive OrdRes where
  | val (k : Nat)
  | err
  | out
deriving DecidableEq, Repr

/-- `order_aux(elem, prod, order)` from `Monoid.element_order`:
return `order` once `prod == identity`, else recurse on
`(op(prod, elem), order + 1)`. -/
def orderAux (alg : Alg) (idn elemName : String) : Nat → String → Nat → OrdRes
  | 0, _, _ => .out
  | fuel + 1, prod, ord =>
      if prod = idn then .val ord
      else
        match opName alg prod elemName with
        | none => .err
        | some p2 => orderAux alg idn elemName fuel p2 (ord + 1)

/-- `Monoid.element_order(element)` = `order_aux(element, element, 1)`,
with the monoid's identity element name. -/
def element_order (alg : Alg) (fuel : Nat) (a : String) : OrdRes :=
  match (tidentity alg.table).bind fun e => alg.elems.get? e with
  | none => .err
  | some idn => orderAux alg idn a fuel a 1

/-- `a` composed with itself `k` times (`k ≥ 1` factors, `algPow a 1 = a`),
grouped as `order_aux` does: `a^(k+1) = a^k ∘ a`. -/
def algPow (alg : Alg) (a : String) : Nat → Option String
  | 0 => none
  | 1 => some a
  | k + 2 => (algPow alg a (k + 1)).bind fun p => opName alg p a

theorem algPow_succ (alg : Alg) (a : String) (m : Nat) (hm : 0 < m) :
    algPow alg a (m + 1) = (algPow alg a m).bind fun p => opName alg p a := by
  match m, hm with
  | (k + 1), _ => rfl

theorem algPow_mem (alg : Alg) (hnd : alg.elems.Nodup)
    (hok : tableOK alg.elems.length alg.table = true)
    {a : String} (ha : a ∈ alg.elems) :
    ∀ j, 0 < j → ∃ p, algPow alg a j = some p ∧ p ∈ alg.elems := by
  intro j
  induction j with
  | zero => intro h; omega
  | succ j ih =>
      intro _
      by_cases hj : 0 < j
      · obtain ⟨p, hp, hpmem⟩ := ih hj
        obtain ⟨z, hz, hzmem⟩ := binOp_mem hnd hok hpmem ha
        refine ⟨z, ?_, hzmem⟩
        rw [algPow_succ alg a j hj, hp]
        exact hz
      · have hj0 : j = 0 := by omega
        subst hj0
        exact ⟨a, rfl, ha⟩

theorem orderAux_reaches (alg : Alg) (idn a : String)
    (hpow : ∀ j, 0 < j → ∃ p, algPow alg a j = some p ∧ p ∈ alg.elems)
    (k : Nat) (hk : 0 < k) (hkid : algPow alg a k = some idn)
    (hmin : ∀ j, j < k → 0 < j → algPow alg a j ≠ some idn) :
    ∀ d m p, 0 < m → m + d = k → algPow alg a m = some p →
      ∀ fuel, d < fuel → orderAux alg idn a fuel p m = .val k := by
  intro d
  induction d with
  | zero =>
      intro m p hm hmk hp fuel hfuel
      have hmkk : m = k := by omega
      subst hmkk
      rw [hkid] at hp
      injection hp with hp
      match fuel, hfuel with
      | fuel + 1, _ =>
          simp only [orderAux]
          rw [if_pos hp.symm]
  | succ d ih =>
      intro m p hm hmk hp fuel hfuel
      have hmk' : m < k := by omega
      have hpne : ¬ p = idn := by
        intro hpe
        exact hmin m hmk' hm (hpe ▸ hp)
      obtain ⟨p', hp', _⟩ := hpow (m + 1) (by omega)
      have hop : opName alg p a = some p' := by
        rw [algPow_succ alg a m hm, hp] at hp'
        exact hp'
      match fuel, hfuel with
      | fuel + 1, hfuel =>
          simp only [orderAux]
          rw [if_neg hpne, hop]
          exact ih (m + 1) p' (by omega) (by omega) hp' fuel (by omega)

theorem orderAux_diverges (alg : Alg) (idn a : String)
    (hpow : ∀ j, 0 < j → ∃ p, algPow alg a j = some p ∧ p ∈ alg.elems)
    (hnever : ∀ k, 0 < k → algPow alg a k ≠ some idn) :
    ∀ fuel m p, 0 < m → algPow alg a m = some p →
      orderAux alg idn a fuel p m = .out := by
  intro fuel
  induction fuel with
  | zero => intro m p _ _; rfl
  | succ fuel ih =>
      intro m p hm hp
      have hpne : ¬ p = idn := by
        intro hpe
        exact hnever m hm (hpe ▸ hp)
      obtain ⟨p', hp', _⟩ := hpow (m + 1) (by omega)
      have hop : opName alg p a = some p' := by
        rw [algPow_succ alg a m hm, hp] at hp'
        exact hp'
      simp only [orderAux]
      rw [if_neg hpne, hop]
      exact ih (m + 1) p' (by omega) hp'

/-- C10: on a Monoid (duplicate-free elements, valid table, identity
element), `element_order(a)` terminates and returns the least `k ≥ 1` with
`a^k = identity` whenever one exists (any fuel `≥ k` suffices, i.e. the
recursion depth is exactly `k`); when no positive power of `a` equals the
identity the recursion never returns, at no recursion depth. -/
theorem element_order_spec (alg : Alg) (hnd : alg.elems.Nodup)
    (hok : tableOK alg.elems.length alg.table = true) (idn : String)
    (hid : (tidentity alg.table).bind (fun e => alg.elems.get? e) = some idn)
    (a : String) (ha : a ∈ alg.elems) :
    (∀ k, 0 < k → algPow alg a k = some idn →
      (∀ j, j < k → 0 < j → algPow alg a j ≠ some idn) →
      ∀ fuel, k ≤ fuel → element_order alg fuel a = .val k) ∧
    ((∀ k, 0 < k → algPow alg a k ≠ some idn) →
      ∀ fuel, element_order alg fuel a = .out) := by
  have hpow := algPow_mem alg hnd hok ha
  constructor
  · intro k hk hkid hmin fuel hfuel
    rw [element_order, hid]
    exact orderAux_reaches alg idn a hpow k hk hkid hmin (k - 1) 1 a
      (by omega) (by omega) rfl fuel (by omega)
  · intro hnever fuel
    rw [element_order, hid]
    exact orderAux_diverges alg idn a hpow hnever fuel 1 a (by omega) rfl

/-- C10 witness: in the cyclic group of order 4, `element_order('a') = 4`,
reached with any fuel `≥ 4`. -/
theorem element_order_spec_witness :
    (0 < 4 ∧ algPow (Alg.mk ["e", "a", "a^2", "a^3"]
        [[0, 1, 2, 3], [1, 2, 3, 0], [2, 3, 0, 1], [3, 0, 1, 2]] (fun _ => none)) "a" 4
        = some "e") ∧
    element_order (Alg.mk ["e", "a", "a^2", "a^3"]
        [[0, 1, 2, 3], [1, 2, 3, 0], [2, 3, 0, 1], [3, 0, 1, 2]] (fun _ => none)) 10 "a"
      = OrdRes.val 4 :=
  ⟨⟨by decide, by decide⟩,
    (element_order_spec (Alg.mk ["e", "a", "a^2", "a^3"]
        [[0, 1, 2, 3], [1, 2, 3, 0], [2, 3, 0, 1], [3, 0, 1, 2]] (fun _ => none))
      (by decide) (by decide) "e" (by decide) "a" (by decide)).1 4 (by decide) (by decide)
      (by decide) 10 (by decide)⟩

/-- C3 witness: the cyclic group of order 3, at element `a`. -/
theorem group_inv_two_sided_witness :
    (["e", "a", "b"] : List String).Nodup ∧
    tableOK 3 [[0, 1, 2], [1, 2, 0], [2, 0, 1]] = true ∧
    is_associative [[0, 1, 2], [1, 2, 0], [2, 0, 1]] = true ∧
    tidentity [[0, 1, 2], [1, 2, 0], [2, 0, 1]] = some 0 ∧
    has_inverses [[0, 1, 2], [1, 2, 0], [2, 0, 1]] = true ∧
    ∃ b idn, (["e", "a", "b"] : List String).get? 0 = some idn ∧
      groupInv ["e", "a", "b"] [[0, 1, 2], [1, 2, 0], [2, 0, 1]] "a" = some b ∧
      binOp ["e", "a", "b"] [[0, 1, 2], [1, 2, 0], [2, 0, 1]] "a" b = some idn ∧
      binOp ["e", "a", "b"] [[0, 1, 2], [1, 2, 0], [2, 0, 1]] b "a" = some idn :=
  ⟨by decide, by decide, by decide, by decide, by decide,
    group_inv_two_sided ["e", "a", "b"] [[0, 1, 2], [1, 2, 0], [2, 0, 1]]
      (by decide) (by decide) (by decide) 0 (by decide) (by decide) "a" (by decide)⟩
